import Mathlib

/-!
Verification development for the SnipSnap terminal snippet manager
(`main.go`).  Go strings are immutable byte sequences, so every string is
embedded as a `List Nat` of byte values (`GoStr`).  The persistence layer
(`saveSnippets` / `loadSnippets`, the `base64` codec from the standard
library, `strconv.Atoi`/`%d` formatting, `strings.Split`, `bufio.ScanLines`)
and the Bubble Tea `model.Update` state machine are transcribed below.
External widget collaborators (the menu list, the text input and the text
area) are treated as opaque update functions supplied as parameters.
-/

/-- Bytes of a Go string. -/
abbrev GoStr := List Nat

/-- Byte list of a Lean string literal (ASCII contents only are used). -/
def gs (s : String) : GoStr := s.toList.map Char.toNat

/-- `type snippet struct { ID int; Name, Language, Code string }`. -/
structure Snippet where
  ID : Int
  Name : GoStr
  Language : GoStr
  Code : GoStr
deriving DecidableEq, Repr

instance : Inhabited Snippet := ⟨⟨0, [], [], []⟩⟩

/-! ### base64 (Go `encoding/base64`, `StdEncoding`) -/

/-- Index `n` of the standard base64 alphabet, as a byte. -/
def b64char (n : Nat) : Nat :=
  if n < 26 then 65 + n
  else if n < 52 then 97 + (n - 26)
  else if n < 62 then 48 + (n - 52)
  else if n = 62 then 43
  else 47

/-- `decodeMap`: the sextet value of byte `c`, or `none` for bytes outside
the alphabet. -/
def b64index (c : Nat) : Option Nat :=
  if 65 ≤ c ∧ c ≤ 90 then some (c - 65)
  else if 97 ≤ c ∧ c ≤ 122 then some (c - 97 + 26)
  else if 48 ≤ c ∧ c ≤ 57 then some (c - 48 + 52)
  else if c = 43 then some 62
  else if c = 47 then some 63
  else none

/-- `EncodeToString`: 3 input bytes become 4 alphabet bytes; a final
partial group is padded with `=` (byte 61). -/
def goBase64Encode : List Nat → List Nat
  | a :: b :: c :: rest =>
      let val := a * 65536 + b * 256 + c
      b64char (val / 262144 % 64) :: b64char (val / 4096 % 64) ::
        b64char (val / 64 % 64) :: b64char (val % 64) :: goBase64Encode rest
  | [a, b] =>
      let val := a * 65536 + b * 256
      [b64char (val / 262144 % 64), b64char (val / 4096 % 64),
        b64char (val / 64 % 64), 61]
  | [a] =>
      let val := a * 65536
      [b64char (val / 262144 % 64), b64char (val / 4096 % 64), 61, 61]
  | [] => []

/-- Bytes produced from one decoded quantum: `dlen` sextets (0-padded to
four) yield `dlen - 1` output bytes. -/
def b64emit (ds : List Nat) : List Nat :=
  let d := fun i => (ds.getD i 0)
  let val := d 0 * 262144 + d 1 * 4096 + d 2 * 64 + d 3
  [val / 65536, val / 256 % 256, val % 256].take (ds.length - 1)

/-- Result of decoding one quantum (`decodeQuantum`): either a full
quantum was decoded and decoding continues on `rest`, or decoding stops,
cleanly (`isErr = false`) or with a `CorruptInputError` (`isErr = true`). -/
inductive QRes where
  | cont (bytes : List Nat) (rest : List Nat)
  | stop (bytes : List Nat) (isErr : Bool)
deriving DecidableEq, Repr

/-- Skip newline bytes (10 and 13), as `decodeQuantum` does around
padding. -/
def skipNL : List Nat → List Nat
  | [] => []
  | c :: rest => if c = 10 ∨ c = 13 then skipNL rest else c :: rest

/-- Transcription of `Encoding.decodeQuantum` for `StdEncoding`:
`ds` holds the sextets decoded so far in the current quantum. -/
def decodeQ : List Nat → List Nat → QRes
  | ds, [] =>
      if ds.isEmpty then QRes.stop [] false else QRes.stop [] true
  | ds, c :: rest =>
      match b64index c with
      | some v =>
          if ds.length = 3 then QRes.cont (b64emit (ds ++ [v])) rest
          else decodeQ (ds ++ [v]) rest
      | none =>
          if c = 10 ∨ c = 13 then decodeQ ds rest
          else if c = 61 then
            if ds.length = 2 then
              match skipNL rest with
              | [] => QRes.stop [] true
              | c2 :: rest3 =>
                  if c2 = 61 then QRes.stop (b64emit ds) (!(skipNL rest3).isEmpty)
                  else QRes.stop [] true
            else if ds.length = 3 then QRes.stop (b64emit ds) (!(skipNL rest).isEmpty)
            else QRes.stop [] true
          else QRes.stop [] true

/-- The `Decode` driver loop: decode quanta until the input is exhausted
or an error occurs; on error the bytes decoded so far are kept.  `fuel`
dominates the input length. -/
def decodeLoop : Nat → List Nat → List Nat × Bool
  | 0, _ => ([], true)
  | fuel + 1, src =>
      match decodeQ [] src with
      | QRes.stop bytes e => (bytes, e)
      | QRes.cont bytes rest =>
          let r := decodeLoop fuel rest
          (bytes ++ r.1, r.2)

/-- `base64.StdEncoding.DecodeString` with the error reduced to a flag:
the first component is the decoded byte string (what `main.go` keeps, its
error being discarded), the second is whether an error occurred. -/
def goBase64Decode (src : List Nat) : List Nat × Bool :=
  decodeLoop (src.length + 1) src

/-! ### `strconv.Atoi` and `%d` formatting -/

/-- Parse a non-empty all-digit byte string, accumulator style. -/
def parseDigitsAux : GoStr → Nat → Option Nat
  | [], acc => some acc
  | c :: rest, acc =>
      if 48 ≤ c ∧ c ≤ 57 then parseDigitsAux rest (acc * 10 + (c - 48))
      else none

/-- Digits part of `strconv.Atoi`: `none` on empty input or any
non-digit byte. -/
def parseDigits : GoStr → Option Nat
  | [] => none
  | s => parseDigitsAux s 0

/-- `strconv.Atoi` with the error reduced to a flag: on failure the value
is `0` (what `main.go` keeps after `id, _ := strconv.Atoi(...)`).
Integer range clamping is not modelled (ids are mathematical integers). -/
def goAtoi (s : GoStr) : Int × Bool :=
  match s with
  | [] => (0, false)
  | c :: rest =>
      if c = 43 then
        match parseDigits rest with
        | some v => ((v : Int), true)
        | none => (0, false)
      else if c = 45 then
        match parseDigits rest with
        | some v => (-(v : Int), true)
        | none => (0, false)
      else
        match parseDigits (c :: rest) with
        | some v => ((v : Int), true)
        | none => (0, false)

/-- Little-endian decimal digits of `m` (empty for 0); the fuel dominates
the number of digits. -/
def natDigitsRevAux : Nat → Nat → List Nat
  | 0, _ => []
  | fuel + 1, m => if m = 0 then [] else m % 10 :: natDigitsRevAux fuel (m / 10)

/-- Decimal digit bytes of a natural number (big-endian), `"0"` for 0. -/
def natDstr (m : Nat) : GoStr :=
  if m = 0 then [48] else (natDigitsRevAux m m).reverse.map (fun d => d + 48)

/-- `fmt` `%d` formatting of a Go int. -/
def goItoa (n : Int) : GoStr :=
  if n < 0 then 45 :: natDstr n.natAbs else natDstr n.toNat

/-! ### `strings.Split(line, "|||")` and `bufio.ScanLines` -/

/-- Prepend byte `c` to the first field of a split result. -/
def consField (c : Nat) : List GoStr → List GoStr
  | [] => [[c]]
  | l :: ls => (c :: l) :: ls

/-- `strings.Split` on the fixed delimiter `"|||"` (byte 124 thrice):
leftmost-first, non-overlapping matches. -/
def goSplitDelim : GoStr → List GoStr
  | 124 :: 124 :: 124 :: rest => [] :: goSplitDelim rest
  | c :: rest => consField c (goSplitDelim rest)
  | [] => [[]]

/-- Raw line splitting of `bufio.Scanner` with `ScanLines`: tokens end at
byte 10; a final token without a trailing newline is still produced; a
trailing newline produces no extra empty token. -/
def goLinesRaw : GoStr → List GoStr
  | [] => []
  | c :: rest =>
      if c = 10 then [] :: goLinesRaw rest
      else consField c (goLinesRaw rest)

/-- `dropCR`: strip one trailing carriage return (byte 13) from a line. -/
def dropCR (l : GoStr) : GoStr :=
  if l.getLast? = some 13 then l.dropLast else l

/-- Lines delivered by `bufio.Scanner` with `ScanLines`. -/
def goLines (s : GoStr) : List GoStr := (goLinesRaw s).map dropCR

/-! ### `loadSnippets`, `saveSnippets`, `generateID` -/

/-- One scanned line of the store, as `loadSnippets` treats it: kept only
when it splits into exactly 4 fields; the id parse error and the base64
decode error are both discarded. -/
def parseLine4 (line : GoStr) : Option Snippet :=
  match goSplitDelim line with
  | [p0, p1, p2, p3] =>
      some { ID := (goAtoi p0).1, Name := p1, Language := p2,
             Code := (goBase64Decode p3).1 }
  | _ => none

/-- The body of the `loadSnippets` scan loop: split the line on `"|||"`;
on exactly 4 parts append a snippet, otherwise keep the accumulator. -/
def loadStep (acc : List Snippet) (line : GoStr) : List Snippet :=
  match goSplitDelim line with
  | [p0, p1, p2, p3] =>
      acc ++ [{ ID := (goAtoi p0).1, Name := p1, Language := p2,
                Code := (goBase64Decode p3).1 }]
  | _ => acc

/-- `loadSnippets`, applied to the contents of the store file (a missing
file corresponds to empty contents). -/
def loadSnippets (content : GoStr) : List Snippet :=
  (goLines content).foldl loadStep []

/-- The record `fmt.Fprintf(file, "%d|||%s|||%s|||%s\n", ...)` writes for
one snippet, without the final newline byte. -/
def recordLine (s : Snippet) : GoStr :=
  goItoa s.ID ++ [124, 124, 124] ++ s.Name ++ [124, 124, 124] ++ s.Language ++
    [124, 124, 124] ++ goBase64Encode s.Code

/-- `saveSnippets`: the full contents written to the (truncated) store. -/
def saveSnippets (l : List Snippet) : GoStr :=
  l.foldl (fun acc s => acc ++ (recordLine s ++ [10])) []

/-- `generateID`: fold a running maximum starting at 0, plus one. -/
def generateID (snippets : List Snippet) : Int :=
  (snippets.foldl (fun maxID s => if s.ID > maxID then s.ID else maxID) 0) + 1

/-! ### The Bubble Tea model and `model.Update` -/

/-- Key messages (`tea.KeyMsg`) distinguished by `main.go`: the named keys
it tests for, a run of typed characters, and any other key with its
`String()` form. -/
inductive Key where
  | esc
  | enter
  | ctrlS
  | ctrlC
  | up
  | down
  | runes (s : GoStr)
  | other (s : String)
deriving DecidableEq, Repr

/-- `msg.String()` for the keys above. -/
def keyString : Key → GoStr
  | Key.esc => gs "esc"
  | Key.enter => gs "enter"
  | Key.ctrlS => gs "ctrl+s"
  | Key.ctrlC => gs "ctrl+c"
  | Key.up => gs "up"
  | Key.down => gs "down"
  | Key.runes s => s
  | Key.other s => gs s

/-- The fields of `model` that carry application state: the snippet
collection, the mode string, the text input and text area values, the add
wizard field index, the draft snippet, the delete selection index, and
the selected menu item of the external list widget. -/
structure Model where
  snippets : List Snippet
  state : String
  inputValue : GoStr
  textareaValue : GoStr
  currentField : Int
  newSnippet : Snippet
  selectedItem : Int
  listSel : String
deriving DecidableEq, Repr

/-- `model.resetState`: back to the menu, clearing the wizard's transient
state (`selectedItem` and the list widget are left untouched). -/
def resetState (m : Model) : Model :=
  { m with state := "menu", currentField := 0, newSnippet := ⟨0, [], [], []⟩,
           inputValue := [], textareaValue := [] }

/-- One step of `model.Update`: the successor model, whether `tea.Quit`
was returned, and the collection passed to `saveSnippets` when the store
was rewritten. -/
structure StepOut where
  m : Model
  quit : Bool
  saved : Option (List Snippet)
deriving Repr

section Machine

variable (extList : String → Key → String)
variable (extInput : GoStr → Key → GoStr)
variable (extTA : GoStr → Key → GoStr)

/-- The component updates at the bottom of `model.Update`: the list
widget always updates; in the add state the text input updates while the
field index is below 2 and the text area afterwards. -/
def applyExt (m : Model) (k : Key) : Model :=
  let m1 := { m with listSel := extList m.listSel k }
  if m1.state = "add" then
    if m1.currentField < 2 then { m1 with inputValue := extInput m1.inputValue k }
    else { m1 with textareaValue := extTA m1.textareaValue k }
  else m1

/-- The `"menu"` arm of the key switch in `model.Update`. -/
def stepMenu (m : Model) (k : Key) : StepOut :=
  if k = Key.ctrlC then { m := m, quit := true, saved := none }
  else if k = Key.enter then
    if m.listSel = "View Snippets" then
      { m := applyExt extList extInput extTA { m with state := "view" } k,
        quit := false, saved := none }
    else if m.listSel = "Add Snippet" then
      { m := applyExt extList extInput extTA
               { m with state := "add", currentField := 0,
                        newSnippet := ⟨0, [], [], []⟩, inputValue := [] } k,
        quit := false, saved := none }
    else if m.listSel = "Delete Snippet" then
      { m := applyExt extList extInput extTA
               { m with state := "delete", selectedItem := 0 } k,
        quit := false, saved := none }
    else if m.listSel = "Quit" then { m := m, quit := true, saved := none }
    else { m := applyExt extList extInput extTA m k, quit := false, saved := none }
  else { m := applyExt extList extInput extTA m k, quit := false, saved := none }

/-- The `"add"` arm of the key switch in `model.Update`. -/
def stepAdd (m : Model) (k : Key) : StepOut :=
  if k = Key.enter then
    if m.currentField < 2 then
      if m.currentField = 0 then
        { m := applyExt extList extInput extTA
                 { m with newSnippet := { m.newSnippet with Name := m.inputValue },
                          inputValue := [], currentField := m.currentField + 1 } k,
          quit := false, saved := none }
      else if m.currentField = 1 then
        { m := applyExt extList extInput extTA
                 { m with newSnippet := { m.newSnippet with Language := m.inputValue },
                          inputValue := [], currentField := m.currentField + 1 } k,
          quit := false, saved := none }
      else { m := applyExt extList extInput extTA m k, quit := false, saved := none }
    else { m := applyExt extList extInput extTA m k, quit := false, saved := none }
  else if k = Key.ctrlS then
    if m.currentField = 2 then
      let snip : Snippet :=
        { ID := generateID m.snippets, Name := m.newSnippet.Name,
          Language := m.newSnippet.Language, Code := m.textareaValue }
      let snips := m.snippets ++ [snip]
      { m := resetState { m with snippets := snips }, quit := false,
        saved := some snips }
    else { m := applyExt extList extInput extTA m k, quit := false, saved := none }
  else { m := applyExt extList extInput extTA m k, quit := false, saved := none }

/-- The `"delete"` arm of the key switch in `model.Update`. -/
def stepDelete (m : Model) (k : Key) : StepOut :=
  if k = Key.enter then
    if 0 ≤ m.selectedItem ∧ m.selectedItem < (m.snippets.length : Int) then
      let snips := m.snippets.eraseIdx m.selectedItem.toNat
      { m := applyExt extList extInput extTA
               { m with snippets := snips, state := "menu", selectedItem := 0 } k,
        quit := false, saved := some snips }
    else
      { m := applyExt extList extInput extTA
               { m with state := "menu", selectedItem := 0 } k,
        quit := false, saved := none }
  else if keyString k = gs "up" ∧ m.selectedItem > 0 then
    { m := applyExt extList extInput extTA
             { m with selectedItem := m.selectedItem - 1 } k,
      quit := false, saved := none }
  else if keyString k = gs "down" ∧ m.selectedItem < (m.snippets.length : Int) - 1 then
    { m := applyExt extList extInput extTA
             { m with selectedItem := m.selectedItem + 1 } k,
      quit := false, saved := none }
  else { m := applyExt extList extInput extTA m k, quit := false, saved := none }

/-- Transcription of `model.Update` on a key message: the global Esc and
`"q"` handlers, then the state switch, then the widget updates. -/
def step (m : Model) (k : Key) : StepOut :=
  if k = Key.esc ∧ m.state ≠ "menu" then
    { m := resetState m, quit := false, saved := none }
  else if keyString k = gs "q" then
    { m := m, quit := true, saved := none }
  else if m.state = "menu" then stepMenu extList extInput extTA m k
  else if m.state = "add" then stepAdd extList extInput extTA m k
  else if m.state = "delete" then stepDelete extList extInput extTA m k
  else { m := applyExt extList extInput extTA m k, quit := false, saved := none }


/-- Folding `step` over a key sequence, keeping the model. -/
def runKeys (m : Model) (ks : List Key) : Model :=
  ks.foldl (fun a k => (step extList extInput extTA a k).m) m

end Machine

/-- `initialModel`: the startup state, with the collection loaded from
the given store contents and the menu list on its first item. -/
def initModel (content : GoStr) : Model :=
  { snippets := loadSnippets content, state := "menu", inputValue := [],
    textareaValue := [], currentField := 0, newSnippet := ⟨0, [], [], []⟩,
    selectedItem := 0, listSel := "View Snippets" }

/-- Pairwise distinctness of snippet ids (the §3 invariant). -/
def idsUnique (l : List Snippet) : Prop :=
  l.Pairwise (fun a b => a.ID ≠ b.ID)

/-- An external list widget that keeps its selection (used to instantiate
the abstract collaborators at concrete inputs). -/
def extKeepL : String → Key → String := fun s _ => s

/-- An external text widget that keeps its value. -/
def extKeep : GoStr → Key → GoStr := fun s _ => s

/-! ## Lemmas about `strings.Split` and `bufio.ScanLines` -/

theorem goSplitDelim_cons (c : Nat) (rest : GoStr) (h : c ≠ 124) :
    goSplitDelim (c :: rest) = consField c (goSplitDelim rest) := by
  rw [goSplitDelim.eq_def]
  split
  · next heq => injection heq with h1 _; exact absurd h1 h
  · next heq => injection heq with h1 h2; subst h1; subst h2; rfl
  · next heq => cases heq

theorem goSplitDelim_no_delim (l : GoStr) (h : 124 ∉ l) : goSplitDelim l = [l] := by
  induction l with
  | nil => rfl
  | cons c rest ih =>
      have hc : c ≠ 124 := fun e => h (by simp [e])
      rw [goSplitDelim_cons c rest hc, ih (fun hm => h (List.mem_cons_of_mem _ hm))]
      rfl

theorem goSplitDelim_append (a rest : GoStr) (h : 124 ∉ a) :
    goSplitDelim (a ++ 124 :: 124 :: 124 :: rest) = a :: goSplitDelim rest := by
  induction a with
  | nil => rfl
  | cons c a ih =>
      have hc : c ≠ 124 := fun e => h (by simp [e])
      rw [List.cons_append, goSplitDelim_cons _ _ hc,
        ih (fun hm => h (List.mem_cons_of_mem _ hm))]
      rfl

theorem goLinesRaw_append (body rest : GoStr) (h : 10 ∉ body) :
    goLinesRaw (body ++ 10 :: rest) = body :: goLinesRaw rest := by
  induction body with
  | nil => simp [goLinesRaw]
  | cons c body ih =>
      have hc : c ≠ 10 := fun e => h (by simp [e])
      rw [List.cons_append]
      simp only [goLinesRaw, if_neg hc,
        ih (fun hm => h (List.mem_cons_of_mem _ hm)), consField]

theorem dropCR_of_getLast (l : GoStr) (h : l.getLast? ≠ some 13) : dropCR l = l := by
  simp [dropCR, h]

theorem goLines_append (body rest : GoStr) (h10 : 10 ∉ body)
    (h13 : body.getLast? ≠ some 13) :
    goLines (body ++ 10 :: rest) = body :: goLines rest := by
  unfold goLines
  rw [goLinesRaw_append _ _ h10, List.map_cons, dropCR_of_getLast _ h13]

/-! ## Lemmas about `strconv.Atoi` and `%d` -/

theorem parseDigitsAux_digits (ds : List Nat) :
    ∀ acc, (∀ d ∈ ds, d < 10) →
      parseDigitsAux (ds.map (fun d => d + 48)) acc =
        some (ds.foldl (fun a d => a * 10 + d) acc) := by
  induction ds with
  | nil => intro acc _; rfl
  | cons d ds ih =>
      intro acc h
      have hd : d < 10 := h d (by simp)
      simp only [List.map_cons, parseDigitsAux, List.foldl_cons]
      rw [if_pos ⟨by omega, by omega⟩, show d + 48 - 48 = d by omega,
        ih _ (fun x hx => h x (by simp [hx]))]

theorem natDigitsRevAux_lt (fuel : Nat) :
    ∀ m, ∀ d ∈ natDigitsRevAux fuel m, d < 10 := by
  induction fuel with
  | zero => intro m d hd; simp [natDigitsRevAux] at hd
  | succ fuel ih =>
      intro m d hd
      rw [natDigitsRevAux] at hd
      by_cases hm : m = 0
      · simp [hm] at hd
      · rw [if_neg hm] at hd
        rcases List.mem_cons.mp hd with h | h
        · subst h; exact Nat.mod_lt _ (by norm_num)
        · exact ih _ d h

theorem natDigitsRevAux_foldl (fuel : Nat) :
    ∀ m acc, m ≤ fuel →
      ((natDigitsRevAux fuel m).reverse).foldl (fun a d => a * 10 + d) acc =
        acc * 10 ^ (natDigitsRevAux fuel m).length + m := by
  induction fuel with
  | zero =>
      intro m acc hm
      have : m = 0 := by omega
      simp [this, natDigitsRevAux]
  | succ fuel ih =>
      intro m acc hm
      rw [natDigitsRevAux]
      by_cases hm0 : m = 0
      · simp [hm0]
      · rw [if_neg hm0]
        simp only [List.reverse_cons, List.foldl_append, List.foldl_cons,
          List.foldl_nil, List.length_cons]
        rw [ih (m / 10) acc (by omega)]
        rw [pow_succ]
        have hdm : m / 10 * 10 + m % 10 = m := by omega
        ring_nf
        omega

theorem natDstr_mem (m : Nat) : ∀ x ∈ natDstr m, 48 ≤ x ∧ x ≤ 57 := by
  intro x hx
  unfold natDstr at hx
  by_cases hm : m = 0
  · simp [hm] at hx; omega
  · rw [if_neg hm] at hx
    rcases List.mem_map.mp hx with ⟨d, hd, rfl⟩
    have := natDigitsRevAux_lt m m d (List.mem_reverse.mp hd)
    omega

theorem parseDigits_natDstr (m : Nat) : parseDigits (natDstr m) = some m := by
  by_cases hm : m = 0
  · subst hm; rfl
  · unfold natDstr
    rw [if_neg hm]
    have hne : (natDigitsRevAux m m).reverse.map (fun d => d + 48) ≠ [] := by
      rcases Nat.exists_eq_succ_of_ne_zero hm with ⟨k, hk⟩
      intro hcon
      rw [List.map_eq_nil_iff, List.reverse_eq_nil_iff] at hcon
      rw [hk, natDigitsRevAux, if_neg (by omega)] at hcon
      cases hcon
    obtain ⟨c, rest, hshape⟩ :
        ∃ c rest, (natDigitsRevAux m m).reverse.map (fun d => d + 48) = c :: rest := by
      cases h : (natDigitsRevAux m m).reverse.map (fun d => d + 48) with
      | nil => exact absurd h hne
      | cons c rest => exact ⟨c, rest, rfl⟩
    rw [hshape, show parseDigits (c :: rest) = parseDigitsAux (c :: rest) 0 from rfl,
      ← hshape,
      parseDigitsAux_digits _ 0 (fun d hd => natDigitsRevAux_lt m m d (List.mem_reverse.mp hd)),
      natDigitsRevAux_foldl m m 0 le_rfl]
    simp

theorem goItoa_mem (n : Int) : ∀ x ∈ goItoa n, (48 ≤ x ∧ x ≤ 57) ∨ x = 45 := by
  intro x hx
  unfold goItoa at hx
  by_cases hn : n < 0
  · rw [if_pos hn] at hx
    rcases List.mem_cons.mp hx with h | h
    · exact Or.inr h
    · exact Or.inl (natDstr_mem _ x h)
  · rw [if_neg hn] at hx
    exact Or.inl (natDstr_mem _ x hx)

theorem goAtoi_goItoa (n : Int) : goAtoi (goItoa n) = (n, true) := by
  by_cases hn : n < 0
  · have h1 : goItoa n = 45 :: natDstr n.natAbs := by
      unfold goItoa; rw [if_pos hn]
    rw [h1]
    simp only [goAtoi, if_neg (by norm_num : (45 : Nat) ≠ 43), if_pos rfl,
      parseDigits_natDstr]
    have : ((n.natAbs : Int)) = -n := by omega
    rw [this]
    simp
  · have h1 : goItoa n = natDstr n.toNat := by
      unfold goItoa; rw [if_neg hn]
    obtain ⟨c, rest, hshape⟩ : ∃ c rest, natDstr n.toNat = c :: rest := by
      cases h : natDstr n.toNat with
      | nil =>
          exfalso
          unfold natDstr at h
          by_cases hz : n.toNat = 0
          · rw [if_pos hz] at h; cases h
          · rw [if_neg hz] at h
            have : (natDigitsRevAux n.toNat n.toNat).reverse.map (fun d => d + 48) ≠ [] := by
              rcases Nat.exists_eq_succ_of_ne_zero hz with ⟨k, hk⟩
              intro hcon
              rw [List.map_eq_nil_iff, List.reverse_eq_nil_iff] at hcon
              rw [hk, natDigitsRevAux, if_neg (by omega)] at hcon
              cases hcon
            exact this h
      | cons c rest => exact ⟨c, rest, rfl⟩
    have hc := natDstr_mem n.toNat c (by rw [hshape]; simp)
    rw [h1, hshape]
    simp only [goAtoi, if_neg (show c ≠ 43 by omega), if_neg (show c ≠ 45 by omega)]
    rw [← hshape, parseDigits_natDstr]
    show ((n.toNat : Int), true) = (n, true)
    have : ((n.toNat : Int)) = n := by omega
    rw [this]

/-! ## Lemmas about the base64 codec -/

theorem b64_inv (v : Nat) (h : v < 64) : b64index (b64char v) = some v := by
  revert v h; decide

theorem b64char_ne (v : Nat) (h : v < 64) :
    b64char v ≠ 10 ∧ b64char v ≠ 13 ∧ b64char v ≠ 124 ∧ b64char v ≠ 61 := by
  revert v h; decide

theorem goBase64Encode_mem (bs : List Nat) :
    ∀ x ∈ goBase64Encode bs, (∃ v, v < 64 ∧ x = b64char v) ∨ x = 61 := by
  induction bs using goBase64Encode.induct with
  | case1 a b c rest ih =>
      intro x hx
      simp only [goBase64Encode, List.mem_cons] at hx
      rcases hx with h | h | h | h | h
      · exact Or.inl ⟨_, Nat.mod_lt _ (by norm_num), h⟩
      · exact Or.inl ⟨_, Nat.mod_lt _ (by norm_num), h⟩
      · exact Or.inl ⟨_, Nat.mod_lt _ (by norm_num), h⟩
      · exact Or.inl ⟨_, Nat.mod_lt _ (by norm_num), h⟩
      · exact ih x h
  | case2 a b =>
      intro x hx
      simp only [goBase64Encode, List.mem_cons, List.not_mem_nil, or_false] at hx
      rcases hx with h | h | h | h
      · exact Or.inl ⟨_, Nat.mod_lt _ (by norm_num), h⟩
      · exact Or.inl ⟨_, Nat.mod_lt _ (by norm_num), h⟩
      · exact Or.inl ⟨_, Nat.mod_lt _ (by norm_num), h⟩
      · exact Or.inr h
  | case3 a =>
      intro x hx
      simp only [goBase64Encode, List.mem_cons, List.not_mem_nil, or_false] at hx
      rcases hx with h | h | h | h
      · exact Or.inl ⟨_, Nat.mod_lt _ (by norm_num), h⟩
      · exact Or.inl ⟨_, Nat.mod_lt _ (by norm_num), h⟩
      · exact Or.inr h
      · exact Or.inr h
  | case4 => intro x hx; simp [goBase64Encode] at hx

theorem goBase64Encode_ne (bs : List Nat) :
    ∀ x ∈ goBase64Encode bs, x ≠ 10 ∧ x ≠ 13 ∧ x ≠ 124 := by
  intro x hx
  rcases goBase64Encode_mem bs x hx with ⟨v, hv, rfl⟩ | rfl
  · have := b64char_ne v hv
    exact ⟨this.1, this.2.1, this.2.2.1⟩
  · refine ⟨by norm_num, by norm_num, by norm_num⟩

theorem decodeQ_sextet (ds : List Nat) (v : Nat) (hv : v < 64)
    (hlen : ds.length ≠ 3) (rest : List Nat) :
    decodeQ ds (b64char v :: rest) = decodeQ (ds ++ [v]) rest := by
  simp [decodeQ, b64_inv v hv, hlen]

theorem decodeQ_sextet4 (ds : List Nat) (v : Nat) (hv : v < 64)
    (hlen : ds.length = 3) (rest : List Nat) :
    decodeQ ds (b64char v :: rest) = QRes.cont (b64emit (ds ++ [v])) rest := by
  simp [decodeQ, b64_inv v hv, hlen]

theorem decodeQ_pad2 (ds : List Nat) (hlen : ds.length = 2) :
    decodeQ ds [61, 61] = QRes.stop (b64emit ds) false := by
  simp [decodeQ, b64index, hlen, skipNL]

theorem decodeQ_pad3 (ds : List Nat) (hlen : ds.length = 3) :
    decodeQ ds [61] = QRes.stop (b64emit ds) false := by
  simp [decodeQ, b64index, hlen, skipNL]

theorem b64emit_four_eq (d0 d1 d2 d3 : Nat) :
    b64emit [d0, d1, d2, d3] =
      [(d0 * 262144 + d1 * 4096 + d2 * 64 + d3) / 65536,
       (d0 * 262144 + d1 * 4096 + d2 * 64 + d3) / 256 % 256,
       (d0 * 262144 + d1 * 4096 + d2 * 64 + d3) % 256] := rfl

theorem b64emit_three_eq (d0 d1 d2 : Nat) :
    b64emit [d0, d1, d2] =
      [(d0 * 262144 + d1 * 4096 + d2 * 64 + 0) / 65536,
       (d0 * 262144 + d1 * 4096 + d2 * 64 + 0) / 256 % 256] := rfl

theorem b64emit_two_eq (d0 d1 : Nat) :
    b64emit [d0, d1] = [(d0 * 262144 + d1 * 4096 + 0 * 64 + 0) / 65536] := rfl

theorem b64emit_three (a b c : Nat) (ha : a < 256) (hb : b < 256) (hc : c < 256) :
    b64emit [(a * 65536 + b * 256 + c) / 262144 % 64,
             (a * 65536 + b * 256 + c) / 4096 % 64,
             (a * 65536 + b * 256 + c) / 64 % 64,
             (a * 65536 + b * 256 + c) % 64] = [a, b, c] := by
  rw [b64emit_four_eq]
  simp only [List.cons.injEq, and_true]
  refine ⟨?_, ?_, ?_⟩ <;> omega

theorem b64emit_two (a b : Nat) (ha : a < 256) (hb : b < 256) :
    b64emit [(a * 65536 + b * 256) / 262144 % 64,
             (a * 65536 + b * 256) / 4096 % 64,
             (a * 65536 + b * 256) / 64 % 64] = [a, b] := by
  rw [b64emit_three_eq]
  simp only [List.cons.injEq, and_true]
  refine ⟨?_, ?_⟩ <;> omega

theorem b64emit_one (a : Nat) (ha : a < 256) :
    b64emit [a * 65536 / 262144 % 64, a * 65536 / 4096 % 64] = [a] := by
  rw [b64emit_two_eq]
  simp only [List.cons.injEq, and_true]
  omega

theorem decodeQ_chunk3 (a b c : Nat) (ha : a < 256) (hb : b < 256) (hc : c < 256)
    (tail : List Nat) :
    decodeQ [] (b64char ((a * 65536 + b * 256 + c) / 262144 % 64) ::
      b64char ((a * 65536 + b * 256 + c) / 4096 % 64) ::
      b64char ((a * 65536 + b * 256 + c) / 64 % 64) ::
      b64char ((a * 65536 + b * 256 + c) % 64) :: tail) = QRes.cont [a, b, c] tail := by
  rw [decodeQ_sextet _ _ (by omega) (by simp), List.nil_append,
    decodeQ_sextet _ _ (by omega) (by simp),
    decodeQ_sextet _ _ (by omega) (by simp),
    decodeQ_sextet4 _ _ (by omega) (by simp)]
  congr 1
  rw [show ((([(a * 65536 + b * 256 + c) / 262144 % 64] ++
      [(a * 65536 + b * 256 + c) / 4096 % 64]) ++
      [(a * 65536 + b * 256 + c) / 64 % 64]) ++
      [(a * 65536 + b * 256 + c) % 64]) =
      [(a * 65536 + b * 256 + c) / 262144 % 64,
       (a * 65536 + b * 256 + c) / 4096 % 64,
       (a * 65536 + b * 256 + c) / 64 % 64,
       (a * 65536 + b * 256 + c) % 64] by simp]
  exact b64emit_three a b c ha hb hc

theorem decodeQ_chunk2 (a b : Nat) (ha : a < 256) (hb : b < 256) :
    decodeQ [] [b64char ((a * 65536 + b * 256) / 262144 % 64),
      b64char ((a * 65536 + b * 256) / 4096 % 64),
      b64char ((a * 65536 + b * 256) / 64 % 64), 61] = QRes.stop [a, b] false := by
  rw [decodeQ_sextet _ _ (by omega) (by simp), List.nil_append,
    decodeQ_sextet _ _ (by omega) (by simp),
    decodeQ_sextet _ _ (by omega) (by simp),
    decodeQ_pad3 _ (by simp)]
  congr 1
  rw [show (([(a * 65536 + b * 256) / 262144 % 64] ++
      [(a * 65536 + b * 256) / 4096 % 64]) ++
      [(a * 65536 + b * 256) / 64 % 64]) =
      [(a * 65536 + b * 256) / 262144 % 64,
       (a * 65536 + b * 256) / 4096 % 64,
       (a * 65536 + b * 256) / 64 % 64] by simp]
  exact b64emit_two a b ha hb

theorem decodeQ_chunk1 (a : Nat) (ha : a < 256) :
    decodeQ [] [b64char (a * 65536 / 262144 % 64),
      b64char (a * 65536 / 4096 % 64), 61, 61] = QRes.stop [a] false := by
  rw [decodeQ_sextet _ _ (by omega) (by simp), List.nil_append,
    decodeQ_sextet _ _ (by omega) (by simp),
    decodeQ_pad2 _ (by simp)]
  congr 1
  rw [show ([a * 65536 / 262144 % 64] ++ [a * 65536 / 4096 % 64]) =
      [a * 65536 / 262144 % 64, a * 65536 / 4096 % 64] by simp]
  exact b64emit_one a ha

theorem decodeQ_cont_length : ∀ (src ds b rest : List Nat),
    decodeQ ds src = QRes.cont b rest → rest.length < src.length := by
  intro src
  induction src with
  | nil =>
      intro ds b rest h
      rw [decodeQ] at h
      split_ifs at h <;> cases h
  | cons c src ih =>
      intro ds b rest h
      rw [decodeQ] at h
      cases hb : b64index c with
      | some v =>
          rw [hb] at h
          simp only [] at h
          by_cases h3 : ds.length = 3
          · rw [if_pos h3] at h
            injection h with h1 h2
            subst h2
            simp
          · rw [if_neg h3] at h
            have := ih _ _ _ h
            simp only [List.length_cons]
            omega
      | none =>
          rw [hb] at h
          simp only [] at h
          by_cases hnl : c = 10 ∨ c = 13
          · rw [if_pos hnl] at h
            have := ih _ _ _ h
            simp only [List.length_cons]
            omega
          · rw [if_neg hnl] at h
            by_cases h61 : c = 61
            · rw [if_pos h61] at h
              by_cases h2 : ds.length = 2
              · rw [if_pos h2] at h
                cases hsk : skipNL src with
                | nil => rw [hsk] at h; cases h
                | cons c2 rest3 =>
                    rw [hsk] at h
                    dsimp only [] at h
                    split_ifs at h <;> cases h
              · rw [if_neg h2] at h
                split_ifs at h <;> cases h
            · rw [if_neg h61] at h
              cases h

theorem decodeLoop_irrel : ∀ (f1 f2 : Nat) (src : List Nat),
    src.length < f1 → src.length < f2 → decodeLoop f1 src = decodeLoop f2 src := by
  intro f1
  induction f1 with
  | zero => intro f2 src h1 _; omega
  | succ f1 ih =>
      intro f2 src h1 h2
      cases f2 with
      | zero => omega
      | succ f2 =>
          rw [decodeLoop, decodeLoop]
          cases hq : decodeQ [] src with
          | stop bytes e => rfl
          | cont bytes rest =>
              have hr := decodeQ_cont_length src [] bytes rest hq
              simp only []
              rw [ih f2 rest (by omega) (by omega)]

theorem goBase64Decode_encode : ∀ (bs : List Nat), (∀ x ∈ bs, x < 256) →
    goBase64Decode (goBase64Encode bs) = (bs, false) := by
  intro bs
  induction bs using goBase64Encode.induct with
  | case1 a b c rest ih =>
      intro h
      have ha : a < 256 := h a (by simp)
      have hb : b < 256 := h b (by simp)
      have hc : c < 256 := h c (by simp)
      have hrest : ∀ x ∈ rest, x < 256 := fun x hx => h x (by simp [hx])
      have henc : goBase64Encode (a :: b :: c :: rest) =
          b64char ((a * 65536 + b * 256 + c) / 262144 % 64) ::
          b64char ((a * 65536 + b * 256 + c) / 4096 % 64) ::
          b64char ((a * 65536 + b * 256 + c) / 64 % 64) ::
          b64char ((a * 65536 + b * 256 + c) % 64) :: goBase64Encode rest := rfl
      unfold goBase64Decode
      rw [henc]
      rw [show (b64char ((a * 65536 + b * 256 + c) / 262144 % 64) ::
          b64char ((a * 65536 + b * 256 + c) / 4096 % 64) ::
          b64char ((a * 65536 + b * 256 + c) / 64 % 64) ::
          b64char ((a * 65536 + b * 256 + c) % 64) :: goBase64Encode rest).length =
          (goBase64Encode rest).length + 4 by simp]
      rw [decodeLoop, decodeQ_chunk3 a b c ha hb hc]
      simp only []
      rw [decodeLoop_irrel ((goBase64Encode rest).length + 4)
        ((goBase64Encode rest).length + 1) (goBase64Encode rest) (by omega) (by omega)]
      have := ih hrest
      unfold goBase64Decode at this
      rw [this]
      simp
  | case2 a b =>
      intro h
      have ha : a < 256 := h a (by simp)
      have hb : b < 256 := h b (by simp)
      have henc : goBase64Encode [a, b] =
          [b64char ((a * 65536 + b * 256) / 262144 % 64),
           b64char ((a * 65536 + b * 256) / 4096 % 64),
           b64char ((a * 65536 + b * 256) / 64 % 64), 61] := rfl
      unfold goBase64Decode
      rw [henc]
      rw [show ([b64char ((a * 65536 + b * 256) / 262144 % 64),
           b64char ((a * 65536 + b * 256) / 4096 % 64),
           b64char ((a * 65536 + b * 256) / 64 % 64), 61]).length = 3 + 1 by simp]
      rw [decodeLoop, decodeQ_chunk2 a b ha hb]
  | case3 a =>
      intro h
      have ha : a < 256 := h a (by simp)
      have henc : goBase64Encode [a] =
          [b64char (a * 65536 / 262144 % 64), b64char (a * 65536 / 4096 % 64), 61, 61] := rfl
      unfold goBase64Decode
      rw [henc]
      rw [show ([b64char (a * 65536 / 262144 % 64),
          b64char (a * 65536 / 4096 % 64), 61, 61]).length = 3 + 1 by simp]
      rw [decodeLoop, decodeQ_chunk1 a ha]
  | case4 => intro _; rfl

/-! ## Save/load round trip -/

/-- Well-formedness under which the flat format is lossless: code is a
byte string, and name and language avoid the newline and `|` bytes. -/
def WfSnippet (s : Snippet) : Prop :=
  (∀ x ∈ s.Code, x < 256) ∧ 10 ∉ s.Name ∧ 124 ∉ s.Name ∧
    10 ∉ s.Language ∧ 124 ∉ s.Language

instance : DecidablePred WfSnippet := fun s => by
  unfold WfSnippet
  infer_instance

theorem loadStep_eq (acc : List Snippet) (line : GoStr) :
    loadStep acc line = acc ++ (parseLine4 line).toList := by
  unfold loadStep parseLine4
  generalize goSplitDelim line = ps
  rcases ps with _ | ⟨p0, _ | ⟨p1, _ | ⟨p2, _ | ⟨p3, _ | ⟨p4, ps⟩⟩⟩⟩⟩ <;> simp

theorem loadSnippets_filterMap_aux :
    ∀ (ls : List GoStr) (acc : List Snippet),
      ls.foldl loadStep acc = acc ++ ls.filterMap parseLine4 := by
  intro ls
  induction ls with
  | nil => intro acc; simp
  | cons line ls ih =>
      intro acc
      rw [List.foldl_cons, ih, loadStep_eq, List.filterMap_cons]
      cases h : parseLine4 line <;> simp [h]

theorem loadSnippets_eq (content : GoStr) :
    loadSnippets content = (goLines content).filterMap parseLine4 := by
  unfold loadSnippets
  rw [loadSnippets_filterMap_aux]
  simp

theorem saveSnippets_aux :
    ∀ (l : List Snippet) (acc : GoStr),
      l.foldl (fun acc s => acc ++ (recordLine s ++ [10])) acc = acc ++ saveSnippets l := by
  intro l
  induction l with
  | nil => intro acc; simp [saveSnippets]
  | cons s l ih =>
      intro acc
      rw [List.foldl_cons, ih]
      have hcons : saveSnippets (s :: l) = ([] ++ (recordLine s ++ [10])) ++ saveSnippets l := by
        conv_lhs =>
          rw [show saveSnippets (s :: l) =
            List.foldl (fun acc s => acc ++ (recordLine s ++ [10]))
              ([] ++ (recordLine s ++ [10])) l from rfl]
        rw [ih]
      rw [hcons]
      simp

theorem saveSnippets_cons (s : Snippet) (l : List Snippet) :
    saveSnippets (s :: l) = recordLine s ++ 10 :: saveSnippets l := by
  conv_lhs =>
    rw [show saveSnippets (s :: l) =
      List.foldl (fun acc s => acc ++ (recordLine s ++ [10]))
        ([] ++ (recordLine s ++ [10])) l from rfl]
  rw [saveSnippets_aux]
  simp

theorem mem_of_getLast? : ∀ (l : GoStr) (x : Nat), l.getLast? = some x → x ∈ l := by
  intro l
  induction l with
  | nil => intro x h; cases h
  | cons c rest ih =>
      intro x h
      cases hr : rest with
      | nil =>
          subst hr
          injection h with h1
          rw [← h1]
          exact List.getLast_mem _
      | cons d ds =>
          subst hr
          rw [List.getLast?_cons_cons] at h
          exact List.mem_cons_of_mem _ (ih x h)

theorem goItoa_ne (n : Int) : ∀ x ∈ goItoa n, x ≠ 10 ∧ x ≠ 124 := by
  intro x hx
  rcases goItoa_mem n x hx with ⟨h1, h2⟩ | rfl
  · omega
  · omega

theorem recordLine_no10 (s : Snippet) (h10n : 10 ∉ s.Name) (h10l : 10 ∉ s.Language) :
    10 ∉ recordLine s := by
  intro hmem
  unfold recordLine at hmem
  simp at hmem
  rcases hmem with h | h | h | h
  · exact (goItoa_ne s.ID 10 h).1 rfl
  · exact h10n h
  · exact h10l h
  · exact (goBase64Encode_ne s.Code 10 h).1 rfl

theorem recordLine_getLast (s : Snippet) : (recordLine s).getLast? ≠ some 13 := by
  intro hcon
  unfold recordLine at hcon
  cases henc : goBase64Encode s.Code with
  | nil =>
      rw [henc, List.append_nil, List.getLast?_append_of_ne_nil _ (by simp)] at hcon
      exact absurd hcon (by decide)
  | cons e es =>
      rw [henc, List.getLast?_append_of_ne_nil _ (by simp)] at hcon
      have hmem : (13 : Nat) ∈ goBase64Encode s.Code := by
        rw [henc]
        exact mem_of_getLast? _ _ hcon
      exact (goBase64Encode_ne s.Code 13 hmem).2.1 rfl

theorem goSplitDelim_recordLine (s : Snippet)
    (hn : 124 ∉ s.Name) (hl : 124 ∉ s.Language) :
    goSplitDelim (recordLine s) =
      [goItoa s.ID, s.Name, s.Language, goBase64Encode s.Code] := by
  have hi : 124 ∉ goItoa s.ID := fun h => (goItoa_ne s.ID 124 h).2 rfl
  have he : (124 : Nat) ∉ goBase64Encode s.Code :=
    fun h => (goBase64Encode_ne s.Code 124 h).2.2 rfl
  unfold recordLine
  rw [show goItoa s.ID ++ [124, 124, 124] ++ s.Name ++ [124, 124, 124] ++
      s.Language ++ [124, 124, 124] ++ goBase64Encode s.Code =
      goItoa s.ID ++ (124 :: 124 :: 124 :: (s.Name ++ (124 :: 124 :: 124 ::
        (s.Language ++ (124 :: 124 :: 124 :: goBase64Encode s.Code))))) by simp]
  rw [goSplitDelim_append _ _ hi, goSplitDelim_append _ _ hn,
    goSplitDelim_append _ _ hl, goSplitDelim_no_delim _ he]

theorem parseLine4_some (line p0 p1 p2 p3 : GoStr)
    (h : goSplitDelim line = [p0, p1, p2, p3]) :
    parseLine4 line =
      some ⟨(goAtoi p0).1, p1, p2, (goBase64Decode p3).1⟩ := by
  unfold parseLine4
  rw [h]

theorem parseLine4_none (line : GoStr) (h : (goSplitDelim line).length ≠ 4) :
    parseLine4 line = none := by
  unfold parseLine4
  rcases hs : goSplitDelim line with _ | ⟨p0, _ | ⟨p1, _ | ⟨p2, _ | ⟨p3, _ | ⟨p4, ps⟩⟩⟩⟩⟩ <;>
    rw [hs] at h <;> simp at h ⊢

theorem parseLine4_recordLine (s : Snippet) (h : WfSnippet s) :
    parseLine4 (recordLine s) = some s := by
  rw [parseLine4_some _ _ _ _ _ (goSplitDelim_recordLine s h.2.2.1 h.2.2.2.2)]
  rw [goAtoi_goItoa, goBase64Decode_encode s.Code h.1]

theorem loadSnippets_saveSnippets (l : List Snippet) (h : ∀ s ∈ l, WfSnippet s) :
    loadSnippets (saveSnippets l) = l := by
  induction l with
  | nil => rfl
  | cons s l ih =>
      have hs := h s (by simp)
      have hl : ∀ t ∈ l, WfSnippet t := fun t ht => h t (by simp [ht])
      rw [saveSnippets_cons, loadSnippets_eq,
        goLines_append _ _ (recordLine_no10 s hs.2.1 hs.2.2.2.1) (recordLine_getLast s),
        List.filterMap_cons, parseLine4_recordLine s hs]
      rw [← loadSnippets_eq, ih hl]

theorem goAtoi_fail_zero (p : GoStr) (h : (goAtoi p).2 = false) : (goAtoi p).1 = 0 := by
  rcases p with _ | ⟨c, rest⟩
  · rfl
  · unfold goAtoi at h ⊢
    dsimp only [] at h ⊢
    by_cases h43 : c = 43
    · rw [if_pos h43] at h ⊢
      cases hp : parseDigits rest
      · rfl
      · rw [hp] at h
        exact Bool.noConfusion h
    · rw [if_neg h43] at h ⊢
      by_cases h45 : c = 45
      · rw [if_pos h45] at h ⊢
        cases hp : parseDigits rest
        · rfl
        · rw [hp] at h
          exact Bool.noConfusion h
      · rw [if_neg h45] at h ⊢
        cases hp : parseDigits (c :: rest)
        · rfl
        · rw [hp] at h
          exact Bool.noConfusion h

/-! ## Partial decoding on invalid base64 input -/

theorem skipNL_decomp : ∀ (l : List Nat),
    ∃ nl, l = nl ++ skipNL l ∧ ∀ x ∈ nl, x = 10 ∨ x = 13 := by
  intro l
  induction l with
  | nil => exact ⟨[], rfl, by simp⟩
  | cons c l ih =>
      by_cases hc : c = 10 ∨ c = 13
      · obtain ⟨nl, hl, hmem⟩ := ih
        refine ⟨c :: nl, ?_, ?_⟩
        · rw [skipNL, if_pos hc, List.cons_append, ← hl]
        · intro x hx
          rcases List.mem_cons.mp hx with rfl | hx
          · exact hc
          · exact hmem x hx
      · refine ⟨[], ?_, by simp⟩
        rw [skipNL, if_neg hc, List.nil_append]

theorem skipNL_nl_append : ∀ (nl : List Nat), (∀ x ∈ nl, x = 10 ∨ x = 13) →
    ∀ t, skipNL (nl ++ t) = skipNL t := by
  intro nl
  induction nl with
  | nil => intro _ t; rfl
  | cons c nl ih =>
      intro h t
      have hc : c = 10 ∨ c = 13 := h c (by simp)
      rw [List.cons_append, skipNL, if_pos hc, ih (fun x hx => h x (by simp [hx]))]

theorem skipNL_nl_nil (nl : List Nat) (h : ∀ x ∈ nl, x = 10 ∨ x = 13) :
    skipNL nl = [] := by
  have := skipNL_nl_append nl h []
  rw [List.append_nil] at this
  rw [this]
  rfl

theorem skipNL_not_nl (c : Nat) (rest : List Nat) (h : ¬(c = 10 ∨ c = 13)) :
    skipNL (c :: rest) = c :: rest := by
  rw [skipNL, if_neg h]

theorem decodeQ_cont_split : ∀ (src ds b rest : List Nat),
    decodeQ ds src = QRes.cont b rest →
    ∃ p, src = p ++ rest ∧ ∀ tail, decodeQ ds (p ++ tail) = QRes.cont b tail := by
  intro src
  induction src with
  | nil =>
      intro ds b rest h
      rw [decodeQ] at h
      split_ifs at h <;> cases h
  | cons c src ih =>
      intro ds b rest h
      rw [decodeQ] at h
      cases hb : b64index c with
      | some v =>
          rw [hb] at h
          simp only [] at h
          by_cases h3 : ds.length = 3
          · rw [if_pos h3] at h
            injection h with h1 h2
            refine ⟨[c], by simp [h2], ?_⟩
            intro tail
            rw [List.cons_append, List.nil_append, decodeQ, hb]
            simp only []
            rw [if_pos h3, h1]
          · rw [if_neg h3] at h
            obtain ⟨p, hp, hall⟩ := ih _ _ _ h
            refine ⟨c :: p, by simp [hp], ?_⟩
            intro tail
            rw [List.cons_append, decodeQ, hb]
            simp only []
            rw [if_neg h3]
            exact hall tail
      | none =>
          rw [hb] at h
          simp only [] at h
          by_cases hnl : c = 10 ∨ c = 13
          · rw [if_pos hnl] at h
            obtain ⟨p, hp, hall⟩ := ih _ _ _ h
            refine ⟨c :: p, by simp [hp], ?_⟩
            intro tail
            rw [List.cons_append, decodeQ, hb]
            simp only []
            rw [if_pos hnl]
            exact hall tail
          · rw [if_neg hnl] at h
            by_cases h61 : c = 61
            · rw [if_pos h61] at h
              by_cases h2 : ds.length = 2
              · rw [if_pos h2] at h
                cases hsk : skipNL src with
                | nil => rw [hsk] at h; cases h
                | cons c2 rest3 =>
                    rw [hsk] at h
                    dsimp only [] at h
                    split_ifs at h <;> cases h
              · rw [if_neg h2] at h
                split_ifs at h <;> cases h
            · rw [if_neg h61] at h
              cases h

theorem decodeQ_stop_err : ∀ (src ds b : List Nat),
    decodeQ ds src = QRes.stop b true →
    b = [] ∨ ∃ p q, src = p ++ q ∧ q ≠ [] ∧ decodeQ ds p = QRes.stop b false := by
  intro src
  induction src with
  | nil =>
      intro ds b h
      rw [decodeQ] at h
      split_ifs at h with hds
      · injection h with _ h2
        exact Bool.noConfusion h2
      · injection h with h1 _
        exact Or.inl h1.symm
  | cons c src ih =>
      intro ds b h
      rw [decodeQ] at h
      cases hb : b64index c with
      | some v =>
          rw [hb] at h
          simp only [] at h
          by_cases h3 : ds.length = 3
          · rw [if_pos h3] at h; cases h
          · rw [if_neg h3] at h
            rcases ih _ _ h with hb0 | ⟨p, q, hpq, hq, hstop⟩
            · exact Or.inl hb0
            · refine Or.inr ⟨c :: p, q, by simp [hpq], hq, ?_⟩
              rw [decodeQ, hb]
              simp only []
              rw [if_neg h3]
              exact hstop
      | none =>
          rw [hb] at h
          simp only [] at h
          by_cases hnl : c = 10 ∨ c = 13
          · rw [if_pos hnl] at h
            rcases ih _ _ h with hb0 | ⟨p, q, hpq, hq, hstop⟩
            · exact Or.inl hb0
            · refine Or.inr ⟨c :: p, q, by simp [hpq], hq, ?_⟩
              rw [decodeQ, hb]
              simp only []
              rw [if_pos hnl]
              exact hstop
          · rw [if_neg hnl] at h
            by_cases h61 : c = 61
            · rw [if_pos h61] at h
              by_cases h2 : ds.length = 2
              · rw [if_pos h2] at h
                cases hsk : skipNL src with
                | nil =>
                    rw [hsk] at h
                    injection h with h1 _
                    exact Or.inl h1.symm
                | cons c2 rest3 =>
                    rw [hsk] at h
                    dsimp only [] at h
                    by_cases hc2 : c2 = 61
                    · rw [if_pos hc2] at h
                      injection h with h1 h2e
                      obtain ⟨nl1, hnl1, hmem1⟩ := skipNL_decomp src
                      obtain ⟨nl2, hnl2, hmem2⟩ := skipNL_decomp rest3
                      have hqne : skipNL rest3 ≠ [] := by
                        intro hcon
                        rw [hcon] at h2e
                        exact Bool.noConfusion h2e
                      refine Or.inr ⟨c :: (nl1 ++ (c2 :: nl2)), skipNL rest3, ?_, hqne, ?_⟩
                      · conv_lhs => rw [hnl1, hsk, hnl2]
                        simp
                      · rw [decodeQ, hb]
                        simp only []
                        rw [if_neg hnl, if_pos h61, if_pos h2]
                        rw [skipNL_nl_append nl1 hmem1,
                          skipNL_not_nl c2 nl2 (by omega)]
                        dsimp only []
                        rw [if_pos hc2, skipNL_nl_nil nl2 hmem2, h1]
                        rfl
                    · rw [if_neg hc2] at h
                      injection h with h1 _
                      exact Or.inl h1.symm
              · rw [if_neg h2] at h
                by_cases h3 : ds.length = 3
                · rw [if_pos h3] at h
                  injection h with h1 h2e
                  obtain ⟨nl1, hnl1, hmem1⟩ := skipNL_decomp src
                  have hqne : skipNL src ≠ [] := by
                    intro hcon
                    rw [hcon] at h2e
                    exact Bool.noConfusion h2e
                  refine Or.inr ⟨c :: nl1, skipNL src, ?_, hqne, ?_⟩
                  · conv_lhs => rw [hnl1]
                    simp
                  · rw [decodeQ, hb]
                    simp only []
                    rw [if_neg hnl, if_pos h61, if_neg h2, if_pos h3,
                      skipNL_nl_nil nl1 hmem1, h1]
                    rfl
                · rw [if_neg h3] at h
                  injection h with h1 _
                  exact Or.inl h1.symm
            · rw [if_neg h61] at h
              injection h with h1 _
              exact Or.inl h1.symm

theorem goBase64Decode_err_prefix_aux : ∀ (n : Nat) (src bytes : List Nat),
    src.length ≤ n → goBase64Decode src = (bytes, true) →
    ∃ p q, src = p ++ q ∧ q ≠ [] ∧ goBase64Decode p = (bytes, false) := by
  intro n
  induction n with
  | zero =>
      intro src bytes hlen h
      cases src with
      | nil =>
          have h0 : (([], false) : List Nat × Bool) = (bytes, true) := h
          injection h0 with _ h2
          exact Bool.noConfusion h2
      | cons c cs => simp at hlen
  | succ n ih =>
      intro src bytes hlen h
      unfold goBase64Decode at h
      rw [decodeLoop] at h
      cases hq : decodeQ [] src with
      | stop b e =>
          rw [hq] at h
          dsimp only [] at h
          injection h with h1 h2
          rw [h2] at hq
          rcases decodeQ_stop_err src [] b hq with hb0 | ⟨p, q, hpq, hqne, hstop⟩
          · refine ⟨[], src, rfl, ?_, ?_⟩
            · intro hcon
              subst hcon
              have h0 : QRes.stop ([] : List Nat) false = QRes.stop b true := by
                rw [← hq]
                rfl
              injection h0 with _ hx
              exact Bool.noConfusion hx
            · rw [← h1, hb0]
              rfl
          · refine ⟨p, q, hpq, hqne, ?_⟩
            unfold goBase64Decode
            rw [decodeLoop, hstop]
            dsimp only []
            rw [h1]
      | cont b rest =>
          rw [hq] at h
          dsimp only [] at h
          injection h with h1 h2
          have hrl := decodeQ_cont_length src [] b rest hq
          have hr : decodeLoop src.length rest = goBase64Decode rest := by
            unfold goBase64Decode
            exact decodeLoop_irrel _ _ _ (by omega) (by omega)
          rw [hr] at h1 h2
          have hrest : goBase64Decode rest = ((goBase64Decode rest).1, true) := by
            rw [← h2]
          obtain ⟨p2, q2, hpq2, hq2ne, hdec2⟩ :=
            ih rest (goBase64Decode rest).1 (by omega) hrest
          obtain ⟨p1, hp1, hall⟩ := decodeQ_cont_split src [] b rest hq
          have hp1ne : p1 ≠ [] := by
            intro hcon
            subst hcon
            have h0 := hall []
            simp [decodeQ] at h0
          have hp1pos : 0 < p1.length := List.length_pos.mpr hp1ne
          refine ⟨p1 ++ p2, q2, ?_, hq2ne, ?_⟩
          · rw [hp1, hpq2, List.append_assoc]
          · unfold goBase64Decode
            rw [decodeLoop, hall p2]
            dsimp only []
            have hirr : decodeLoop (p1 ++ p2).length p2 = goBase64Decode p2 := by
              unfold goBase64Decode
              apply decodeLoop_irrel
              · rw [List.length_append]
                omega
              · omega
            rw [hirr, hdec2, h1]

theorem goBase64Decode_err_prefix (src bytes : List Nat)
    (h : goBase64Decode src = (bytes, true)) :
    ∃ p q, src = p ++ q ∧ q ≠ [] ∧ goBase64Decode p = (bytes, false) :=
  goBase64Decode_err_prefix_aux src.length src bytes le_rfl h

/-! ## Lemmas about the state machine -/

@[simp] theorem applyExt_snippets (eL : String → Key → String)
    (eI eT : GoStr → Key → GoStr) (m : Model) (k : Key) :
    (applyExt eL eI eT m k).snippets = m.snippets := by
  unfold applyExt
  dsimp only []
  split_ifs <;> rfl

@[simp] theorem applyExt_state (eL : String → Key → String)
    (eI eT : GoStr → Key → GoStr) (m : Model) (k : Key) :
    (applyExt eL eI eT m k).state = m.state := by
  unfold applyExt
  dsimp only []
  split_ifs <;> rfl

@[simp] theorem applyExt_currentField (eL : String → Key → String)
    (eI eT : GoStr → Key → GoStr) (m : Model) (k : Key) :
    (applyExt eL eI eT m k).currentField = m.currentField := by
  unfold applyExt
  dsimp only []
  split_ifs <;> rfl

@[simp] theorem applyExt_newSnippet (eL : String → Key → String)
    (eI eT : GoStr → Key → GoStr) (m : Model) (k : Key) :
    (applyExt eL eI eT m k).newSnippet = m.newSnippet := by
  unfold applyExt
  dsimp only []
  split_ifs <;> rfl

@[simp] theorem applyExt_selectedItem (eL : String → Key → String)
    (eI eT : GoStr → Key → GoStr) (m : Model) (k : Key) :
    (applyExt eL eI eT m k).selectedItem = m.selectedItem := by
  unfold applyExt
  dsimp only []
  split_ifs <;> rfl

theorem runKeys_nil (eL : String → Key → String) (eI eT : GoStr → Key → GoStr)
    (m : Model) : runKeys eL eI eT m [] = m := rfl

theorem runKeys_cons (eL : String → Key → String) (eI eT : GoStr → Key → GoStr)
    (m : Model) (k : Key) (ks : List Key) :
    runKeys eL eI eT m (k :: ks) = runKeys eL eI eT (step eL eI eT m k).m ks := rfl

/-- Every transition either leaves the collection alone without saving,
appends the committed draft with a generated id (add, Ctrl+S at the code
step), or removes the selected snippet (delete, Enter in bounds); the
store is written exactly in the latter two cases, with the new
collection. -/
theorem step_snippets_cases (eL : String → Key → String)
    (eI eT : GoStr → Key → GoStr) (m : Model) (k : Key) :
    ((step eL eI eT m k).m.snippets = m.snippets ∧ (step eL eI eT m k).saved = none) ∨
    (m.state = "add" ∧ k = Key.ctrlS ∧ m.currentField = 2 ∧
      (step eL eI eT m k).m.snippets =
        m.snippets ++ [⟨generateID m.snippets, m.newSnippet.Name,
          m.newSnippet.Language, m.textareaValue⟩] ∧
      (step eL eI eT m k).saved = some ((step eL eI eT m k).m.snippets)) ∨
    (m.state = "delete" ∧ k = Key.enter ∧
      (0 ≤ m.selectedItem ∧ m.selectedItem < (m.snippets.length : Int)) ∧
      (step eL eI eT m k).m.snippets = m.snippets.eraseIdx m.selectedItem.toNat ∧
      (step eL eI eT m k).saved = some (m.snippets.eraseIdx m.selectedItem.toNat)) := by
  unfold step
  split_ifs with h1 h2 h3 h10 h17
  · exact Or.inl ⟨rfl, rfl⟩
  · exact Or.inl ⟨rfl, rfl⟩
  · unfold stepMenu
    split_ifs <;>
      first
        | exact Or.inl ⟨rfl, rfl⟩
        | exact Or.inl ⟨applyExt_snippets _ _ _ _ _, rfl⟩
  · unfold stepAdd
    split_ifs <;>
      first
        | exact Or.inl ⟨applyExt_snippets _ _ _ _ _, rfl⟩
        | exact Or.inr (Or.inl ⟨h10, by assumption, by assumption, rfl, rfl⟩)
  · unfold stepDelete
    split_ifs <;>
      first
        | exact Or.inl ⟨applyExt_snippets _ _ _ _ _, rfl⟩
        | exact Or.inr (Or.inr ⟨h17, by assumption, by assumption,
            applyExt_snippets _ _ _ _ _, rfl⟩)
  · exact Or.inl ⟨applyExt_snippets _ _ _ _ _, rfl⟩

theorem step_state_add (eL : String → Key → String) (eI eT : GoStr → Key → GoStr)
    (m : Model) (k : Key) (h : m.state = "add") (h1 : k ≠ Key.esc)
    (h2 : keyString k ≠ gs "q") :
    step eL eI eT m k = stepAdd eL eI eT m k := by
  unfold step
  rw [if_neg (fun hc => h1 hc.1), if_neg h2, if_neg (by simp [h]), if_pos h]

theorem step_state_delete (eL : String → Key → String) (eI eT : GoStr → Key → GoStr)
    (m : Model) (k : Key) (h : m.state = "delete") (h1 : k ≠ Key.esc)
    (h2 : keyString k ≠ gs "q") :
    step eL eI eT m k = stepDelete eL eI eT m k := by
  unfold step
  rw [if_neg (fun hc => h1 hc.1), if_neg h2, if_neg (by simp [h]),
    if_neg (by simp [h]), if_pos h]

theorem stepDelete_updown (eL : String → Key → String) (eI eT : GoStr → Key → GoStr)
    (m : Model) (k : Key) (hk : k = Key.up ∨ k = Key.down) :
    (stepDelete eL eI eT m k).m.state = m.state ∧
    (stepDelete eL eI eT m k).m.snippets = m.snippets ∧
    ((stepDelete eL eI eT m k).m.selectedItem = m.selectedItem ∨
     (m.selectedItem > 0 ∧
       (stepDelete eL eI eT m k).m.selectedItem = m.selectedItem - 1) ∨
     (m.selectedItem < (m.snippets.length : Int) - 1 ∧
       (stepDelete eL eI eT m k).m.selectedItem = m.selectedItem + 1)) := by
  have hke : k ≠ Key.enter := by rcases hk with rfl | rfl <;> decide
  unfold stepDelete
  rw [if_neg hke]
  by_cases hup : keyString k = gs "up" ∧ m.selectedItem > 0
  · rw [if_pos hup]
    exact ⟨applyExt_state _ _ _ _ _, applyExt_snippets _ _ _ _ _,
      Or.inr (Or.inl ⟨hup.2, applyExt_selectedItem _ _ _ _ _⟩)⟩
  · rw [if_neg hup]
    by_cases hdn : keyString k = gs "down" ∧ m.selectedItem < (m.snippets.length : Int) - 1
    · rw [if_pos hdn]
      exact ⟨applyExt_state _ _ _ _ _, applyExt_snippets _ _ _ _ _,
        Or.inr (Or.inr ⟨hdn.2, applyExt_selectedItem _ _ _ _ _⟩)⟩
    · rw [if_neg hdn]
      exact ⟨applyExt_state _ _ _ _ _, applyExt_snippets _ _ _ _ _,
        Or.inl (applyExt_selectedItem _ _ _ _ _)⟩

theorem genfold_le : ∀ (l : List Snippet) (a : Int),
    a ≤ l.foldl (fun mx s => if s.ID > mx then s.ID else mx) a ∧
    ∀ s ∈ l, s.ID ≤ l.foldl (fun mx s => if s.ID > mx then s.ID else mx) a := by
  intro l
  induction l with
  | nil => intro a; exact ⟨le_rfl, by simp⟩
  | cons s l ih =>
      intro a
      rw [List.foldl_cons]
      obtain ⟨ih1, ih2⟩ := ih (if s.ID > a then s.ID else a)
      have hab : a ≤ (if s.ID > a then s.ID else a) := by split_ifs <;> omega
      have hsb : s.ID ≤ (if s.ID > a then s.ID else a) := by split_ifs <;> omega
      refine ⟨le_trans hab ih1, ?_⟩
      intro t ht
      rcases List.mem_cons.mp ht with rfl | ht
      · exact le_trans hsb ih1
      · exact ih2 t ht

theorem generateID_gt (l : List Snippet) : ∀ s ∈ l, s.ID < generateID l := by
  intro s hs
  unfold generateID
  have := (genfold_le l 0).2 s hs
  omega

theorem genfold_eq : ∀ (l : List Snippet) (a mx : Int),
    (∀ s ∈ l, s.ID ≤ mx) → a ≤ mx → ((∃ s ∈ l, s.ID = mx) ∨ a = mx) →
    l.foldl (fun m s => if s.ID > m then s.ID else m) a = mx := by
  intro l
  induction l with
  | nil =>
      intro a mx _ _ hd
      rcases hd with ⟨s, hs, _⟩ | rfl
      · simp at hs
      · rfl
  | cons s l ih =>
      intro a mx hle ha hd
      rw [List.foldl_cons]
      have hsmx : s.ID ≤ mx := hle s (by simp)
      have hbmx : (if s.ID > a then s.ID else a) ≤ mx := by split_ifs <;> omega
      apply ih _ mx (fun t ht => hle t (by simp [ht])) hbmx
      rcases hd with ⟨t, ht, htmx⟩ | rfl
      · rcases List.mem_cons.mp ht with rfl | ht2
        · right
          split_ifs <;> omega
        · left
          exact ⟨t, ht2, htmx⟩
      · right
        split_ifs <;> omega

theorem step_field_transfer (eL : String → Key → String) (eI eT : GoStr → Key → GoStr)
    (m : Model) (k : Key) (c0 c1 : Nat) (hc1 : c0 ≤ c1)
    (henter : k = Key.enter → c0 + 1 ≤ c1)
    (h0 : m.state = "add" → m.currentField ≤ (c0 : Int)) :
    (step eL eI eT m k).m.state = "add" →
    (step eL eI eT m k).m.currentField ≤ (c1 : Int) := by
  intro hadd
  unfold step at hadd ⊢
  split_ifs at hadd ⊢ with h1 h2 h3 ha hd
  · simp [resetState] at hadd
  · have := h0 hadd
    show m.currentField ≤ (c1 : Int)
    omega
  · unfold stepMenu at hadd ⊢
    split_ifs at hadd ⊢ with hm1 hm2 hm3 hm4 hm5 hm6
    · rw [h3] at hadd
      exact absurd hadd (by decide)
    · simp only [applyExt_state] at hadd
      exact absurd hadd (by decide)
    · simp only [applyExt_currentField]
      show (0 : Int) ≤ (c1 : Int)
      omega
    · simp only [applyExt_state] at hadd
      exact absurd hadd (by decide)
    · rw [h3] at hadd
      exact absurd hadd (by decide)
    · simp only [applyExt_state] at hadd
      rw [h3] at hadd
      exact absurd hadd (by decide)
    · simp only [applyExt_state] at hadd
      rw [h3] at hadd
      exact absurd hadd (by decide)
  · unfold stepAdd at hadd ⊢
    have hf := h0 ha
    split_ifs at hadd ⊢ with he hlt hf0 hf1 hcs hf2
    · simp only [applyExt_currentField]
      have := henter he
      show m.currentField + 1 ≤ (c1 : Int)
      omega
    · simp only [applyExt_currentField]
      have := henter he
      show m.currentField + 1 ≤ (c1 : Int)
      omega
    · simp only [applyExt_currentField]
      omega
    · simp only [applyExt_currentField]
      omega
    · simp [resetState] at hadd
    · simp only [applyExt_currentField]
      omega
    · simp only [applyExt_currentField]
      omega
  · unfold stepDelete at hadd ⊢
    split_ifs at hadd ⊢ with hd1 hd2 hd3 hd4
    · simp only [applyExt_state] at hadd
      exact absurd hadd (by decide)
    · simp only [applyExt_state] at hadd
      exact absurd hadd (by decide)
    · simp only [applyExt_state] at hadd
      rw [hd] at hadd
      exact absurd hadd (by decide)
    · simp only [applyExt_state] at hadd
      rw [hd] at hadd
      exact absurd hadd (by decide)
    · simp only [applyExt_state] at hadd
      rw [hd] at hadd
      exact absurd hadd (by decide)
  · simp only [applyExt_state] at hadd
    exact absurd hadd ha

theorem add_field_le_count (eL : String → Key → String) (eI eT : GoStr → Key → GoStr) :
    ∀ (ks : List Key) (m : Model) (c0 : Nat),
      (m.state = "add" → m.currentField ≤ (c0 : Int)) →
      (runKeys eL eI eT m ks).state = "add" →
      (runKeys eL eI eT m ks).currentField ≤ ((c0 + ks.count Key.enter : Nat) : Int) := by
  intro ks
  induction ks with
  | nil =>
      intro m c0 h0 h
      simpa using h0 h
  | cons k ks ih =>
      intro m c0 h0 hadd
      rw [runKeys_cons] at hadd ⊢
      by_cases hk : k = Key.enter
      · have htr := step_field_transfer eL eI eT m k c0 (c0 + 1) (by omega)
          (fun _ => le_rfl) h0
        have := ih (step eL eI eT m k).m (c0 + 1) htr hadd
        have hcnt : (k :: ks).count Key.enter = ks.count Key.enter + 1 := by
          simp [List.count_cons, hk]
        rw [hcnt]
        have harith : c0 + 1 + ks.count Key.enter = c0 + (ks.count Key.enter + 1) := by omega
        rw [← harith]
        exact this
      · have htr := step_field_transfer eL eI eT m k c0 c0 le_rfl
          (fun he => absurd he hk) h0
        have := ih (step eL eI eT m k).m c0 htr hadd
        have hcnt : (k :: ks).count Key.enter = ks.count Key.enter := by
          simp [List.count_cons, hk]
        rw [hcnt]
        exact this

theorem c8_aux (eL : String → Key → String) (eI eT : GoStr → Key → GoStr) :
    ∀ (ks : List Key) (m : Model),
      (∀ k ∈ ks, k = Key.up ∨ k = Key.down) →
      m.state = "delete" → 0 ≤ m.selectedItem →
      (m.selectedItem = 0 ∨ m.selectedItem < (m.snippets.length : Int)) →
      (runKeys eL eI eT m ks).snippets = m.snippets ∧
      (runKeys eL eI eT m ks).state = "delete" ∧
      0 ≤ (runKeys eL eI eT m ks).selectedItem ∧
      ((runKeys eL eI eT m ks).selectedItem = 0 ∨
        (runKeys eL eI eT m ks).selectedItem < (m.snippets.length : Int)) := by
  intro ks
  induction ks with
  | nil =>
      intro m _ hst hge hlt
      exact ⟨rfl, hst, hge, hlt⟩
  | cons k ks ih =>
      intro m hks hst hge hlt
      have hk := hks k (by simp)
      have hkesc : k ≠ Key.esc := by rcases hk with rfl | rfl <;> decide
      have hkq : keyString k ≠ gs "q" := by rcases hk with rfl | rfl <;> decide
      rw [runKeys_cons]
      have hstep : step eL eI eT m k = stepDelete eL eI eT m k :=
        step_state_delete eL eI eT m k hst hkesc hkq
      obtain ⟨hst2, hsn2, hsel2⟩ := stepDelete_updown eL eI eT m k hk
      rw [← hstep] at hst2 hsn2 hsel2
      have hge2 : 0 ≤ (step eL eI eT m k).m.selectedItem := by
        rcases hsel2 with h | ⟨hpos, h⟩ | ⟨_, h⟩ <;> rw [h] <;> omega
      have hlt2 : (step eL eI eT m k).m.selectedItem = 0 ∨
          (step eL eI eT m k).m.selectedItem <
            (((step eL eI eT m k).m.snippets.length : Int)) := by
        rw [hsn2]
        rcases hsel2 with h | ⟨hpos, h⟩ | ⟨hblt, h⟩ <;> rw [h] <;> omega
      obtain ⟨ih1, ih2, ih3, ih4⟩ :=
        ih (step eL eI eT m k).m (fun t ht => hks t (by simp [ht]))
          (hst2.trans hst) hge2 hlt2
      refine ⟨ih1.trans hsn2, ih2, ih3, ?_⟩
      rw [← hsn2]
      exact ih4

theorem stepAdd_saved_iff (eL : String → Key → String) (eI eT : GoStr → Key → GoStr)
    (m : Model) (k : Key) :
    (stepAdd eL eI eT m k).saved ≠ none ↔ (k = Key.ctrlS ∧ m.currentField = 2) := by
  unfold stepAdd
  split_ifs with he hlt hf0 hf1 hcs hf2 <;> simp_all

theorem step_add_saved_iff (eL : String → Key → String) (eI eT : GoStr → Key → GoStr)
    (m : Model) (k : Key) (h : m.state = "add") :
    (step eL eI eT m k).saved ≠ none ↔ (k = Key.ctrlS ∧ m.currentField = 2) := by
  by_cases hesc : k = Key.esc
  · subst hesc
    unfold step
    rw [if_pos ⟨rfl, by simp [h]⟩]
    simp
  · by_cases hq : keyString k = gs "q"
    · unfold step
      rw [if_neg (fun hc => hesc hc.1), if_pos hq]
      have hne : k ≠ Key.ctrlS := by
        intro hc
        subst hc
        exact absurd hq (by decide)
      simp [hne]
    · rw [step_state_add eL eI eT m k h hesc hq]
      exact stepAdd_saved_iff eL eI eT m k

theorem step_add_save_content (eL : String → Key → String) (eI eT : GoStr → Key → GoStr)
    (m : Model) (h : m.state = "add") (hf : m.currentField = 2) :
    (step eL eI eT m Key.ctrlS).saved =
      some (m.snippets ++ [⟨generateID m.snippets, m.newSnippet.Name,
        m.newSnippet.Language, m.textareaValue⟩]) := by
  rw [step_state_add eL eI eT m Key.ctrlS h (by decide) (by decide)]
  unfold stepAdd
  rw [if_neg (by decide : ¬(Key.ctrlS = Key.enter)), if_pos rfl, if_pos hf]

/-! ## The claims -/

/-- C1, counterexample: a snippet whose name contains the delimiter
`"|||"` does not survive a save/load round trip — its record line splits
into five fields and is skipped on load, so the claim fails as stated for
names (and languages) containing delimiter or newline bytes. -/
theorem c1_counterexample :
    loadSnippets (saveSnippets [⟨1, gs "a|||b", gs "go", gs "x"⟩]) ≠
      [⟨1, gs "a|||b", gs "go", gs "x"⟩] := by decide

/-- C1 (amended): saving with `saveSnippets` and loading with
`loadSnippets` reproduces the snippet list, field for field and in order,
for every list of snippets whose name and language contain neither the
newline byte 10 nor the `|` byte 124 (and whose code is a byte string);
the code field may freely contain newlines, `"|||"`, or be empty. -/
theorem c1_roundtrip (l : List Snippet) (h : ∀ s ∈ l, WfSnippet s) :
    loadSnippets (saveSnippets l) = l :=
  loadSnippets_saveSnippets l h

/-- C1, witness: a list with multi-line code containing a delimiter, an
empty language and an empty code round-trips. -/
theorem c1_witness :
    (∀ s ∈ ([⟨1, gs "hello", [], gs "print(1)\nx|||y"⟩,
             ⟨2, gs "b", gs "py", []⟩] : List Snippet), WfSnippet s) ∧
    loadSnippets (saveSnippets
        [⟨1, gs "hello", [], gs "print(1)\nx|||y"⟩, ⟨2, gs "b", gs "py", []⟩]) =
      [⟨1, gs "hello", [], gs "print(1)\nx|||y"⟩, ⟨2, gs "b", gs "py", []⟩] :=
  ⟨by decide, c1_roundtrip _ (by decide)⟩

/-- C2: pressing the `q` character key returns `tea.Quit` in every state
of the model — including the add wizard, where the claim (and the spec)
say it should be captured as literal text.  The `msg.String() == "q"`
check at the top of `model.Update` runs before the state switch and
before any text widget sees the key. -/
theorem c2_q_always_quits (eL : String → Key → String)
    (eI eT : GoStr → Key → GoStr) (m : Model) :
    (step eL eI eT m (Key.runes (gs "q"))).quit = true ∧
    (step eL eI eT m (Key.runes (gs "q"))).m = m := by
  unfold step
  rw [if_neg (fun hc => Key.noConfusion hc.1),
    if_pos (show keyString (Key.runes (gs "q")) = gs "q" from rfl)]
  exact ⟨rfl, rfl⟩

/-- C3, counterexample: loading a store file whose two lines carry the
same id yields a collection with duplicate ids at startup, so the
uniqueness invariant does not hold in every state reachable from loading
an arbitrary store file. -/
theorem c3_counterexample :
    ¬ idsUnique (initModel (gs "1|||a|||go|||\n1|||b|||py|||\n")).snippets := by
  intro hu
  have h : (initModel (gs "1|||a|||go|||\n1|||b|||py|||\n")).snippets =
      [⟨1, gs "a", gs "go", []⟩, ⟨1, gs "b", gs "py", []⟩] := by decide
  rw [h] at hu
  rcases List.pairwise_cons.mp hu with ⟨h1, _⟩
  exact h1 ⟨1, gs "b", gs "py", []⟩ (List.mem_singleton.mpr rfl) rfl

/-- C3 (amended): the startup collection is exactly what `loadSnippets`
returns (which may contain duplicate ids, see the counterexample), and id
uniqueness is preserved by every transition: add appends a snippet whose
generated id exceeds every existing id, delete removes one snippet, and
no other transition touches the collection. -/
theorem c3_unique_preserved :
    (∀ content : GoStr, (initModel content).snippets = loadSnippets content) ∧
    (∀ (eL : String → Key → String) (eI eT : GoStr → Key → GoStr)
        (m : Model) (k : Key), idsUnique m.snippets →
      idsUnique (step eL eI eT m k).m.snippets) := by
  refine ⟨fun _ => rfl, ?_⟩
  intro eL eI eT m k h
  rcases step_snippets_cases eL eI eT m k with ⟨h1, _⟩ | ⟨_, _, _, h4, _⟩ | ⟨_, _, _, h4, _⟩
  · rw [h1]
    exact h
  · rw [h4]
    apply List.pairwise_append.mpr
    refine ⟨h, List.pairwise_singleton _ _, ?_⟩
    intro a ha b hb
    rw [List.mem_singleton] at hb
    subst hb
    exact ne_of_lt (generateID_gt m.snippets a ha)
  · rw [h4]
    exact List.Pairwise.sublist (List.eraseIdx_sublist _ _) h

/-- C3, witness: preservation applied at a concrete step (confirming the
View-menu Enter transition keeps the empty collection duplicate-free). -/
theorem c3_witness :
    idsUnique ((step extKeepL extKeep extKeep
      ⟨[], "menu", [], [], 0, ⟨0, [], [], []⟩, 0, "View Snippets"⟩
      Key.enter).m.snippets) :=
  c3_unique_preserved.2 _ _ _ _ _ List.Pairwise.nil

/-- C4, counterexample: for the non-empty collection whose single id is
`-5` (loadable from the line `-5|||x|||y|||`), the maximum existing id is
`-5` but `generateID` returns `1`, not `-5 + 1`: the fold starts its
running maximum at `0`. -/
theorem c4_counterexample :
    (∃ s ∈ ([⟨-5, [], [], []⟩] : List Snippet), s.ID = -5) ∧
    (∀ s ∈ ([⟨-5, [], [], []⟩] : List Snippet), s.ID ≤ -5) ∧
    generateID [⟨-5, [], [], []⟩] ≠ -5 + 1 := by decide

/-- C4 (amended): `generateID` returns `1` on the empty collection, and
one plus the maximum existing id whenever that maximum is non-negative
(in particular for every collection of ids the program itself assigns);
for a non-empty collection whose ids are all negative it returns `1`
instead.  Deleting the snippet with the maximal id `3` from `{1,2,3}`
makes the next generated id `3` again. -/
theorem c4_generateID :
    generateID [] = 1 ∧
    (∀ (l : List Snippet) (mx : Int), (∃ s ∈ l, s.ID = mx) →
      (∀ s ∈ l, s.ID ≤ mx) → 0 ≤ mx → generateID l = mx + 1) ∧
    generateID (([⟨1, [], [], []⟩, ⟨2, [], [], []⟩, ⟨3, [], [], []⟩] :
      List Snippet).eraseIdx 2) = 3 := by
  refine ⟨rfl, ?_, by decide⟩
  intro l mx hex hle hmx
  unfold generateID
  rw [genfold_eq l 0 mx hle hmx (Or.inl hex)]

/-- C4, witness: the max-plus-one law applied at the concrete collection
with ids `{1,3,2}`. -/
theorem c4_witness :
    (∃ s ∈ ([⟨1, [], [], []⟩, ⟨3, [], [], []⟩, ⟨2, [], [], []⟩] : List Snippet),
      s.ID = 3) ∧
    (∀ s ∈ ([⟨1, [], [], []⟩, ⟨3, [], [], []⟩, ⟨2, [], [], []⟩] : List Snippet),
      s.ID ≤ 3) ∧
    generateID [⟨1, [], [], []⟩, ⟨3, [], [], []⟩, ⟨2, [], [], []⟩] = 3 + 1 :=
  ⟨by decide, by decide, c4_generateID.2.1 _ 3 (by decide) (by decide) (by decide)⟩

/-- C5: in the delete state, Enter with the selection index outside
`[0, len-1]` (in particular on an empty collection) leaves the snippet
collection unchanged and does not write the store; with the index in
bounds it removes exactly the selected snippet and writes the store with
the shrunken collection. -/
theorem c5_delete_bounds (eL : String → Key → String)
    (eI eT : GoStr → Key → GoStr) (m : Model) (h : m.state = "delete") :
    (¬(0 ≤ m.selectedItem ∧ m.selectedItem < (m.snippets.length : Int)) →
      (step eL eI eT m Key.enter).m.snippets = m.snippets ∧
      (step eL eI eT m Key.enter).saved = none) ∧
    ((0 ≤ m.selectedItem ∧ m.selectedItem < (m.snippets.length : Int)) →
      (step eL eI eT m Key.enter).m.snippets =
        m.snippets.eraseIdx m.selectedItem.toNat ∧
      (step eL eI eT m Key.enter).saved =
        some (m.snippets.eraseIdx m.selectedItem.toNat)) := by
  rw [step_state_delete eL eI eT m Key.enter h (by decide) (by decide)]
  unfold stepDelete
  rw [if_pos rfl]
  constructor
  · intro hnb
    rw [if_neg hnb]
    exact ⟨applyExt_snippets _ _ _ _ _, rfl⟩
  · intro hb
    rw [if_pos hb]
    exact ⟨applyExt_snippets _ _ _ _ _, rfl⟩

/-- C5, witness: deleting on an empty collection is a data no-op; on a
two-element collection with index 0 it removes the first snippet. -/
theorem c5_witness :
    ((step extKeepL extKeep extKeep
        ⟨[], "delete", [], [], 0, ⟨0, [], [], []⟩, 0, "Quit"⟩ Key.enter).m.snippets =
      [] ∧
     (step extKeepL extKeep extKeep
        ⟨[], "delete", [], [], 0, ⟨0, [], [], []⟩, 0, "Quit"⟩ Key.enter).saved =
      none) ∧
    ((step extKeepL extKeep extKeep
        ⟨[⟨1, [], [], []⟩, ⟨2, [], [], []⟩], "delete", [], [], 0,
          ⟨0, [], [], []⟩, 0, "Quit"⟩ Key.enter).m.snippets =
      [⟨2, [], [], []⟩] ∧
     (step extKeepL extKeep extKeep
        ⟨[⟨1, [], [], []⟩, ⟨2, [], [], []⟩], "delete", [], [], 0,
          ⟨0, [], [], []⟩, 0, "Quit"⟩ Key.enter).saved =
      some [⟨2, [], [], []⟩]) :=
  ⟨(c5_delete_bounds extKeepL extKeep extKeep _ rfl).1 (by decide),
   (c5_delete_bounds extKeepL extKeep extKeep _ rfl).2 (by decide)⟩

/-- C6: in the add state the store is written exactly when Ctrl+S arrives
at field index 2; the committed snippet carries the previously confirmed
name and language and the code from the text area; and field index 2 is
reachable from the start of the wizard (field index 0) only after at
least two Enter confirmations — the name step and then the language step,
in that order. -/
theorem c6_add_wizard :
    (∀ (eL : String → Key → String) (eI eT : GoStr → Key → GoStr)
        (m : Model) (k : Key), m.state = "add" →
      ((step eL eI eT m k).saved ≠ none ↔ (k = Key.ctrlS ∧ m.currentField = 2))) ∧
    (∀ (eL : String → Key → String) (eI eT : GoStr → Key → GoStr) (m : Model),
      m.state = "add" → m.currentField = 2 →
      (step eL eI eT m Key.ctrlS).saved =
        some (m.snippets ++ [⟨generateID m.snippets, m.newSnippet.Name,
          m.newSnippet.Language, m.textareaValue⟩])) ∧
    (∀ (eL : String → Key → String) (eI eT : GoStr → Key → GoStr)
        (m0 : Model) (ks : List Key), m0.state = "add" → m0.currentField = 0 →
      (runKeys eL eI eT m0 ks).state = "add" →
      (runKeys eL eI eT m0 ks).currentField = 2 →
      2 ≤ ks.count Key.enter) := by
  refine ⟨step_add_saved_iff, step_add_save_content, ?_⟩
  intro eL eI eT m0 ks h0 hf0 hst hcf
  have hle := add_field_le_count eL eI eT ks m0 0
    (fun _ => by rw [hf0]; simp) hst
  rw [hcf] at hle
  have : (2 : Int) ≤ ((0 + ks.count Key.enter : Nat) : Int) := hle
  omega

/-- C6, witness: from the start of the wizard, two Enters reach the code
step, and the reachability bound instantiated there yields
`2 ≤ count Key.enter [enter, enter]`. -/
theorem c6_witness :
    (runKeys extKeepL extKeep extKeep
        ⟨[], "add", gs "nm", [], 0, ⟨0, [], [], []⟩, 0, "Add Snippet"⟩
        [Key.enter, Key.enter]).state = "add" ∧
    (runKeys extKeepL extKeep extKeep
        ⟨[], "add", gs "nm", [], 0, ⟨0, [], [], []⟩, 0, "Add Snippet"⟩
        [Key.enter, Key.enter]).currentField = 2 ∧
    2 ≤ ([Key.enter, Key.enter] : List Key).count Key.enter :=
  ⟨by decide, by decide,
   c6_add_wizard.2.2 extKeepL extKeep extKeep
     ⟨[], "add", gs "nm", [], 0, ⟨0, [], [], []⟩, 0, "Add Snippet"⟩
     [Key.enter, Key.enter] rfl rfl (by decide) (by decide)⟩

/-- C7: `loadSnippets` is exactly the in-order `filterMap` of the
per-line parser over the scanned lines; a line is parsed to a snippet
precisely when it splits on `"|||"` into exactly 4 fields (other lines
are silently skipped); on a kept line the snippet is built from the four
fields, and an id that fails integer parsing contributes the value 0
rather than an error or a skipped record. -/
theorem c7_load_shape :
    (∀ content : GoStr, loadSnippets content = (goLines content).filterMap parseLine4) ∧
    (∀ line : GoStr, (goSplitDelim line).length ≠ 4 → parseLine4 line = none) ∧
    (∀ (line p0 p1 p2 p3 : GoStr), goSplitDelim line = [p0, p1, p2, p3] →
      parseLine4 line =
        some ⟨(goAtoi p0).1, p1, p2, (goBase64Decode p3).1⟩) ∧
    (∀ p : GoStr, (goAtoi p).2 = false → (goAtoi p).1 = 0) :=
  ⟨loadSnippets_eq, parseLine4_none, parseLine4_some, goAtoi_fail_zero⟩

/-- C7, witness: a 2-field line is skipped; a 4-field line whose id text
is `"zz"` is kept with id 0 and its code decoded. -/
theorem c7_witness :
    parseLine4 (gs "1|||2") = none ∧
    parseLine4 (gs "zz|||a|||go|||QQ==") =
      some ⟨(goAtoi (gs "zz")).1, gs "a", gs "go", (goBase64Decode (gs "QQ==")).1⟩ ∧
    (goAtoi (gs "zz")).2 = false ∧
    (goAtoi (gs "zz")).1 = 0 :=
  ⟨c7_load_shape.2.1 _ (by decide),
   c7_load_shape.2.2.1 _ _ _ _ _ (by decide),
   by decide,
   c7_load_shape.2.2.2 _ (by decide)⟩

/-- C8: in the delete state, Up and Down keep the selection index
clamped: starting from index 0, after any sequence of Up/Down keys the
index is non-negative, stays 0 on an empty collection, and stays below
the collection length on a non-empty collection. -/
theorem c8_updown_clamped (eL : String → Key → String)
    (eI eT : GoStr → Key → GoStr) (m0 : Model) (h0 : m0.state = "delete")
    (hs0 : m0.selectedItem = 0) (ks : List Key)
    (hks : ∀ k ∈ ks, k = Key.up ∨ k = Key.down) :
    0 ≤ (runKeys eL eI eT m0 ks).selectedItem ∧
    (m0.snippets = [] → (runKeys eL eI eT m0 ks).selectedItem = 0) ∧
    (m0.snippets ≠ [] →
      (runKeys eL eI eT m0 ks).selectedItem < (m0.snippets.length : Int)) := by
  obtain ⟨h1, h2, h3, h4⟩ :=
    c8_aux eL eI eT ks m0 hks h0 (by rw [hs0]) (Or.inl hs0)
  refine ⟨h3, ?_, ?_⟩
  · intro hemp
    rcases h4 with h | h
    · exact h
    · rw [hemp] at h
      simp at h
      omega
  · intro hne
    rcases h4 with h | h
    · rw [h]
      have hpos : 0 < m0.snippets.length := List.length_pos.mpr hne
      push_cast
      omega
    · exact h

/-- C8, witness: on a singleton collection, the sequence Down, Down, Up
keeps the index within `[0, 0]`. -/
theorem c8_witness :
    0 ≤ (runKeys extKeepL extKeep extKeep
        ⟨[⟨1, [], [], []⟩], "delete", [], [], 0, ⟨0, [], [], []⟩, 0, "Quit"⟩
        [Key.down, Key.down, Key.up]).selectedItem ∧
    (runKeys extKeepL extKeep extKeep
        ⟨[⟨1, [], [], []⟩], "delete", [], [], 0, ⟨0, [], [], []⟩, 0, "Quit"⟩
        [Key.down, Key.down, Key.up]).selectedItem < 1 :=
  ⟨(c8_updown_clamped extKeepL extKeep extKeep _ rfl rfl _ (by decide)).1,
   (c8_updown_clamped extKeepL extKeep extKeep _ rfl rfl _ (by decide)).2.2
     (by decide)⟩

/-- C9: every transition taken while in the view state leaves the snippet
collection unchanged and never writes the store (rendering is a pure
function of the model in the source — a value receiver that calls no
store operation — so only transitions can mutate). -/
theorem c9_view_pure (eL : String → Key → String) (eI eT : GoStr → Key → GoStr)
    (m : Model) (k : Key) (h : m.state = "view") :
    (step eL eI eT m k).m.snippets = m.snippets ∧
    (step eL eI eT m k).saved = none := by
  rcases step_snippets_cases eL eI eT m k with h1 | ⟨ha, _⟩ | ⟨hd, _⟩
  · exact h1
  · rw [h] at ha
    exact absurd ha (by decide)
  · rw [h] at hd
    exact absurd hd (by decide)

/-- C9, witness: pressing Enter in the view state leaves the collection
and the store untouched. -/
theorem c9_witness :
    (step extKeepL extKeep extKeep
        ⟨[⟨1, [], [], []⟩], "view", [], [], 0, ⟨0, [], [], []⟩, 0, "Quit"⟩
        Key.enter).m.snippets = [⟨1, [], [], []⟩] ∧
    (step extKeepL extKeep extKeep
        ⟨[⟨1, [], [], []⟩], "view", [], [], 0, ⟨0, [], [], []⟩, 0, "Quit"⟩
        Key.enter).saved = none :=
  c9_view_pure extKeepL extKeep extKeep _ Key.enter rfl

/-- C10: a store line that splits into exactly 4 fields whose fourth
field is not valid base64 is still loaded (not skipped): `loadSnippets`
is the `filterMap` of the per-line parser, the parser keeps such a line,
and the snippet code it stores is exactly the byte string the decoder
committed before failing — the decode of some proper prefix of the
field, possibly empty. -/
theorem c10_invalid_b64 :
    (∀ content : GoStr, loadSnippets content = (goLines content).filterMap parseLine4) ∧
    (∀ (line p0 p1 p2 p3 : GoStr), goSplitDelim line = [p0, p1, p2, p3] →
      (goBase64Decode p3).2 = true →
      parseLine4 line =
        some ⟨(goAtoi p0).1, p1, p2, (goBase64Decode p3).1⟩ ∧
      ∃ p q, p3 = p ++ q ∧ q ≠ [] ∧
        goBase64Decode p = ((goBase64Decode p3).1, false)) := by
  refine ⟨loadSnippets_eq, ?_⟩
  intro line p0 p1 p2 p3 hs herr
  refine ⟨parseLine4_some line p0 p1 p2 p3 hs, ?_⟩
  apply goBase64Decode_err_prefix
  rw [← herr]

/-- C10, witness: the line `7|||a|||go|||QUJD!!` is kept; its code is
`"ABC"`, the bytes decoded from the valid prefix `"QUJD"` before the
invalid `"!!"`. -/
theorem c10_witness :
    (goBase64Decode (gs "QUJD!!")).2 = true ∧
    (parseLine4 (gs "7|||a|||go|||QUJD!!") =
      some ⟨(goAtoi (gs "7")).1, gs "a", gs "go", (goBase64Decode (gs "QUJD!!")).1⟩ ∧
     ∃ p q, gs "QUJD!!" = p ++ q ∧ q ≠ [] ∧
       goBase64Decode p = ((goBase64Decode (gs "QUJD!!")).1, false)) :=
  ⟨by decide, c10_invalid_b64.2 _ _ _ _ _ (by decide) (by decide)⟩
